import Mathlib

/-!
# The echo packet codec of `examples/echo/udp-echo/client/app/echo.go`

A shallow embedding of the packet codec: the command table, the fixed 32-byte
header, `EchoPackage.Marshal` and `EchoPackage.Unmarshal`.

Conventions of the embedding.

* A Go `byte` is a `Fin 256`; a `bytes.Buffer` is the list of its unread bytes,
  and every operation that reads from it returns the bytes left unread.
* Unsigned header fields are `Nat`, the signed field `Code` is `Int`; the
  fixed widths of Go enter through explicit reductions modulo `2 ^ w` in the
  writers and through the predicate `EchoPkgHeader.InRange`.
* A Go `string` is the list of its bytes.
* A Go method with a pointer receiver that mutates it (`Unmarshal`) returns
  the receiver after the call next to its Go results.
* A run-time fault (an index out of range) is `none`.
-/

namespace Echo

/-- A Go `byte`. -/
abbrev Byte := Fin 256

/-- The conversion `byte(v)` of an unsigned integer: the low eight bits. -/
def toByte (v : Nat) : Byte := ⟨v % 256, Nat.mod_lt v (by decide)⟩

/-- The bytes of a string literal whose characters are all ASCII. -/
def asciiBytes (s : String) : List Byte := s.toList.map (fun c => toByte c.toNat)

/-! ## echo command -/

/-- The type `echoCommand`, a `uint32`. -/
abbrev echoCommand := Nat

def heartbeatCmd : echoCommand := 0

def echoCmd : echoCommand := 1

/-- The table `echoCommandStrings`. -/
def echoCommandStrings : List String := ["heartbeat", "echo"]

/-- The method `echoCommand.String`: `echoCommandStrings[c]`. Go checks
the index of an array access and faults when it is out of range; the fault is
`none`. -/
def echoCommand.String (c : echoCommand) : Option String := echoCommandStrings.get? c

/-! ## constants and errors -/

def echoPkgMagic : Nat := 0x20160905

def maxEchoStringLen : Nat := 0xff

/-- The literal `"ping"`. -/
def echoHeartbeatRequestString : List Byte := asciiBytes "ping"

/-- The literal `"pong"`. -/
def echoHeartbeatResponseString : List Byte := asciiBytes "pong"

/-- The error values that can reach `Unmarshal`: the three package-level
errors of `echo.go`, and the two errors `io.ReadFull` (under `binary.Read`)
reports on a short read. -/
inductive Error where
  | ErrNotEnoughStream
  | ErrTooLargePackage
  | ErrIllegalMagic
  | EOF
  | ErrUnexpectedEOF
  deriving DecidableEq, Repr

/-- The header `EchoPkgHeader`. Its two blank fields (`_ uint16`, `_ int32`)
hold no observable value: Go cannot name them, `==` ignores them,
`binary.Write` emits zero bytes for them and `binary.Read` skips their bytes.
They appear in `binaryWrite`, `binaryRead` and `echoPkgHeaderLen`. -/
structure EchoPkgHeader where
  Magic : Nat
  LogID : Nat
  Sequence : Nat
  ServiceID : Nat
  Command : Nat
  Code : Int
  Len : Nat
  deriving DecidableEq, Repr

/-- The fields of a header are values of their Go types: five `uint32`, one
`int32`, one `uint16`. -/
def EchoPkgHeader.InRange (h : EchoPkgHeader) : Prop :=
  h.Magic < 2 ^ 32 ∧ h.LogID < 2 ^ 32 ∧ h.Sequence < 2 ^ 32 ∧ h.ServiceID < 2 ^ 32 ∧
  h.Command < 2 ^ 32 ∧ (-(2 ^ 31 : Int) ≤ h.Code ∧ h.Code < 2 ^ 31) ∧ h.Len < 2 ^ 16

instance (h : EchoPkgHeader) : Decidable h.InRange := by
  unfold EchoPkgHeader.InRange; infer_instance

/-- The value `echoPkgHeaderLen` set by `init`: `unsafe.Sizeof(EchoPkgHeader{})`,
six 4-byte fields, two 2-byte fields and one 4-byte field, laid out without
gaps. -/
def echoPkgHeaderLen : Nat := 6 * 4 + 2 * 2 + 4

/-- The package `EchoPackage`. -/
structure EchoPackage where
  H : EchoPkgHeader
  B : List Byte
  deriving DecidableEq, Repr

/-! ## encoding/binary, little endian -/

/-- The bytes `binary.LittleEndian.PutUint16` stores. -/
def putUint16 (v : Nat) : List Byte := [toByte v, toByte (v / 2 ^ 8)]

/-- The bytes `binary.LittleEndian.PutUint32` stores. -/
def putUint32 (v : Nat) : List Byte :=
  [toByte v, toByte (v / 2 ^ 8), toByte (v / 2 ^ 16), toByte (v / 2 ^ 24)]

/-- The byte of `b` at index `i`, as a number. -/
def byteAt (b : List Byte) (i : Nat) : Nat := (b.getD i 0).val

/-- The value `binary.LittleEndian.Uint16` reads at the head of `b`:
`b[0] | b[1]<<8`. -/
def getUint16 (b : List Byte) : Nat := byteAt b 0 + byteAt b 1 * 2 ^ 8

/-- The value `binary.LittleEndian.Uint32` reads at the head of `b`:
`b[0] | b[1]<<8 | b[2]<<16 | b[3]<<24`. -/
def getUint32 (b : List Byte) : Nat :=
  byteAt b 0 + byteAt b 1 * 2 ^ 8 + byteAt b 2 * 2 ^ 16 + byteAt b 3 * 2 ^ 24

/-- The conversion `uint32(c)` of an `int32`: the two's-complement pattern. -/
def uint32OfInt32 (c : Int) : Nat := (c % 2 ^ 32).toNat

/-- The conversion `int32(v)` of a `uint32`. -/
def int32OfUint32 (v : Nat) : Int := if v < 2 ^ 31 then (v : Int) else (v : Int) - 2 ^ 32

/-- The bytes `binary.Write` emits for a header in little-endian order: the
fields in declaration order, zero bytes for the blank fields. -/
def encodeHeader (h : EchoPkgHeader) : List Byte :=
  putUint32 h.Magic ++ putUint32 h.LogID ++ putUint32 h.Sequence ++ putUint32 h.ServiceID ++
  putUint32 h.Command ++ putUint32 (uint32OfInt32 h.Code) ++ putUint16 h.Len ++
  putUint16 0 ++ putUint32 0

/-- The call `binary.Write(buf, binary.LittleEndian, h)` on a header: the
contents of `buf` after the call. `binary.Write` reports an error for data
that is not of fixed size and for a failing writer; a header is of fixed size
and `(*bytes.Buffer).Write` returns a `nil` error, so the result is `ok`. -/
def binaryWrite (buf : List Byte) (h : EchoPkgHeader) : Except Error (List Byte) :=
  .ok (buf ++ encodeHeader h)

/-- The header decoded from the 32 bytes `d`; the bytes at offsets 26 to 31
belong to the blank fields and are skipped. -/
def decodeHeader (d : List Byte) : EchoPkgHeader :=
  { Magic := getUint32 d
    LogID := getUint32 (d.drop 4)
    Sequence := getUint32 (d.drop 8)
    ServiceID := getUint32 (d.drop 12)
    Command := getUint32 (d.drop 16)
    Code := int32OfUint32 (getUint32 (d.drop 20))
    Len := getUint16 (d.drop 24) }

/-- The call `binary.Read(buf, binary.LittleEndian, &h)` on a header: it takes
`echoPkgHeaderLen` bytes with `io.ReadFull` and decodes them. On an empty
buffer the result is `io.EOF`, on a shorter non-empty buffer it is
`io.ErrUnexpectedEOF` after draining the buffer; in both cases the header is
not written. Each result carries the bytes left unread. -/
def binaryRead (buf : List Byte) : Except (Error × List Byte) (EchoPkgHeader × List Byte) :=
  if buf.length = 0 then .error (.EOF, buf)
  else if buf.length < echoPkgHeaderLen then .error (.ErrUnexpectedEOF, [])
  else .ok (decodeHeader (buf.take echoPkgHeaderLen), buf.drop echoPkgHeaderLen)

/-! ## bytes.Buffer -/

/-- The method `(*bytes.Buffer).ReadByte`: the next byte and the bytes left,
or `io.EOF` on an empty buffer. -/
def readByte (buf : List Byte) : Except Error (Byte × List Byte) :=
  match buf with
  | [] => .error .EOF
  | b :: rest => .ok (b, rest)

/-- The method `(*bytes.Buffer).Next`: the next `n` bytes, or all of them when
fewer than `n` are left, and the bytes left after them. -/
def next (buf : List Byte) (n : Nat) : List Byte × List Byte := (buf.take n, buf.drop n)

/-! ## EchoPackage -/

/-- The method `EchoPackage.String`; `%d` prints a decimal numeral, `%s` the
bytes of a string. The command name is computed by an explicit call of
`echoCommand.String`, whose fault is the fault of the whole call. -/
def EchoPackage.String (p : EchoPackage) : Option (List Byte) :=
  match echoCommand.String p.H.Command with
  | none => none
  | some cmd =>
    some (asciiBytes "log id:" ++ asciiBytes (toString p.H.LogID) ++
      asciiBytes ", sequence:" ++ asciiBytes (toString p.H.Sequence) ++
      asciiBytes ", command:" ++ asciiBytes cmd ++
      asciiBytes ", echo string:" ++ p.B)

/-- The method `EchoPackage.Marshal`: `ok buf` is the Go result `(buf, nil)`,
`error err` is `(nil, err)`. -/
def EchoPackage.Marshal (p : EchoPackage) : Except Error (List Byte) :=
  match binaryWrite [] p.H with
  | .error err => .error err
  | .ok buf => .ok ((buf ++ [toByte p.B.length]) ++ p.B)

/-- The results of `Unmarshal`: the count `n`, the error (`none` is `nil`), and the
state the call leaves behind: the receiver `p` and the unread bytes `buf`. -/
structure UnmarshalResult where
  n : Nat
  err : Option Error
  p : EchoPackage
  buf : List Byte
  deriving DecidableEq, Repr

/-- The method `EchoPackage.Unmarshal`. The comparison
`maxEchoStringLen < p.H.Len-1` is made in `uint16`, where `Len-1` wraps
around at `Len = 0`. -/
def EchoPackage.Unmarshal (p : EchoPackage) (buf : List Byte) : UnmarshalResult :=
  if buf.length < echoPkgHeaderLen then
    { n := 0, err := some .ErrNotEnoughStream, p := p, buf := buf }
  else
    match binaryRead buf with
    | .error (e, rest) => { n := 0, err := some e, p := p, buf := rest }
    | .ok (h, rest) =>
      if h.Magic ≠ echoPkgMagic then
        { n := 0, err := some .ErrIllegalMagic, p := { p with H := h }, buf := rest }
      else if rest.length < h.Len then
        { n := 0, err := some .ErrNotEnoughStream, p := { p with H := h }, buf := rest }
      else if maxEchoStringLen < (h.Len + 2 ^ 16 - 1) % 2 ^ 16 then
        { n := 0, err := some .ErrTooLargePackage, p := { p with H := h }, buf := rest }
      else
        match readByte rest with
        | .error _ => { n := 0, err := none, p := { p with H := h }, buf := rest }
        | .ok (len, rest1) =>
          { n := h.Len + echoPkgHeaderLen, err := none,
            p := { H := h, B := (next rest1 len.val).1 }, buf := (next rest1 len.val).2 }

/-- A package as the protocol means it to be sent: the magic is the
protocol's, and `Len` counts the length byte and the body. -/
def EchoPackage.Valid (p : EchoPackage) : Prop :=
  p.H.Magic = echoPkgMagic ∧ p.H.Len = p.B.length + 1

instance (p : EchoPackage) : Decidable p.Valid := by
  unfold EchoPackage.Valid; infer_instance

/-- The zero value of `EchoPackage`, a fresh destination for `Unmarshal`. -/
def zeroPackage : EchoPackage :=
  { H := { Magic := 0, LogID := 0, Sequence := 0, ServiceID := 0,
           Command := 0, Code := 0, Len := 0 }
    B := [] }

/-- The heartbeat request of the concrete scenario. -/
def pingPackage : EchoPackage :=
  { H := { Magic := echoPkgMagic, LogID := 1, Sequence := 1, ServiceID := 0,
           Command := heartbeatCmd, Code := 0, Len := 5 }
    B := echoHeartbeatRequestString }

/-! ## Auxiliary definitions: the tail of `Unmarshal` and concrete inputs -/

/-- The body of `Unmarshal` after a header read that succeeded with header
`h` and unread bytes `rest`. -/
def afterHeader (p : EchoPackage) (h : EchoPkgHeader) (rest : List Byte) : UnmarshalResult :=
  if h.Magic ≠ echoPkgMagic then
    { n := 0, err := some .ErrIllegalMagic, p := { p with H := h }, buf := rest }
  else if rest.length < h.Len then
    { n := 0, err := some .ErrNotEnoughStream, p := { p with H := h }, buf := rest }
  else if maxEchoStringLen < (h.Len + 2 ^ 16 - 1) % 2 ^ 16 then
    { n := 0, err := some .ErrTooLargePackage, p := { p with H := h }, buf := rest }
  else
    match readByte rest with
    | .error _ => { n := 0, err := none, p := { p with H := h }, buf := rest }
    | .ok (len, rest1) =>
      { n := h.Len + echoPkgHeaderLen, err := none,
        p := { H := h, B := (next rest1 len.val).1 }, buf := (next rest1 len.val).2 }

/-- A well-typed package with a body of 256 bytes. -/
def longBodyPackage : EchoPackage :=
  { H := { Magic := echoPkgMagic, LogID := 0, Sequence := 0, ServiceID := 0,
           Command := echoCmd, Code := 0, Len := 257 }
    B := List.replicate 256 0 }

/-- A valid package with the largest body the specification allows, 254 bytes;
its `Len` is 255. -/
def maxBodyPackage : EchoPackage :=
  { H := { Magic := echoPkgMagic, LogID := 0, Sequence := 0, ServiceID := 0,
           Command := echoCmd, Code := 0, Len := 255 }
    B := List.replicate 254 0x61 }

/-- A buffer with the right magic and `Len = 257`, followed by 257 bytes. -/
def oversizeBuffer : List Byte :=
  encodeHeader { Magic := echoPkgMagic, LogID := 0, Sequence := 0, ServiceID := 0,
                 Command := echoCmd, Code := 0, Len := 257 } ++ List.replicate 257 0

/-- The echo request used next to the heartbeat request in the two-packet
scenario. -/
def helloPackage : EchoPackage :=
  { H := { Magic := echoPkgMagic, LogID := 2, Sequence := 2, ServiceID := 7,
           Command := echoCmd, Code := -1, Len := 6 }
    B := asciiBytes "hello" }

/-- A buffer whose header announces `Len = 5` while its length byte announces
an empty body: right magic, five bytes after the header, the first of them 0. -/
def slackBuffer : List Byte :=
  encodeHeader { Magic := echoPkgMagic, LogID := 1, Sequence := 1, ServiceID := 0,
                 Command := echoCmd, Code := 0, Len := 5 } ++ [0, 0x70, 0x69, 0x6e, 0x67]

/-- A package that differs from a heartbeat only in its command, 2, a value
of `uint32` outside the command table; its body is empty. -/
def unknownCommandPackage : EchoPackage :=
  { H := { Magic := echoPkgMagic, LogID := 1, Sequence := 1, ServiceID := 0,
           Command := 2, Code := 0, Len := 1 }
    B := [] }

/-- A buffer whose length byte announces more bytes than follow it: right
magic, `Len = 3`, and after the header the length byte 5 and two more bytes. -/
def shortBodyBuffer : List Byte :=
  encodeHeader { Magic := echoPkgMagic, LogID := 1, Sequence := 1, ServiceID := 0,
                 Command := echoCmd, Code := 0, Len := 3 } ++ [5, 0x61, 0x62]

/-- The 37 bytes of the encoded heartbeat request: its header, the length
byte 4 and the bytes of "ping". -/
def pingBuffer : List Byte := encodeHeader pingPackage.H ++ [4, 0x70, 0x69, 0x6e, 0x67]

/-- The encoded heartbeat request with its six reserved bytes, offsets 26 to
31, set to `ff`. -/
def pingBufferReserved : List Byte :=
  pingBuffer.take 26 ++ [0xff, 0xff, 0xff, 0xff, 0xff, 0xff] ++ pingBuffer.drop 32

/-- A buffer with the right magic and `Len = 0`, followed by one byte. -/
def zeroLenBuffer : List Byte :=
  encodeHeader { Magic := echoPkgMagic, LogID := 1, Sequence := 1, ServiceID := 0,
                 Command := echoCmd, Code := 0, Len := 0 } ++ [0]

/-- A buffer whose length byte announces more than its header does: right
magic, `Len = 1`, and after the header the length byte 4 and four more bytes. -/
def greedyBuffer : List Byte :=
  encodeHeader { Magic := echoPkgMagic, LogID := 1, Sequence := 1, ServiceID := 0,
                 Command := echoCmd, Code := 0, Len := 1 } ++ [4, 0x70, 0x69, 0x6e, 0x67]

end Echo

namespace Echo

set_option maxRecDepth 8000

/-! ## Lemmas on the little-endian readers and writers -/

theorem toByte_val (v : Nat) : (toByte v).val = v % 256 := rfl

theorem encodeHeader_length (h : EchoPkgHeader) : (encodeHeader h).length = 32 := by
  simp [encodeHeader, putUint32, putUint16]

theorem uint32OfInt32_lt (c : Int) : uint32OfInt32 c < 2 ^ 32 := by
  unfold uint32OfInt32
  omega

theorem int32OfUint32_uint32OfInt32 (c : Int) (h1 : -(2 ^ 31 : Int) ≤ c) (h2 : c < 2 ^ 31) :
    int32OfUint32 (uint32OfInt32 c) = c := by
  unfold int32OfUint32 uint32OfInt32
  split <;> omega

theorem take_encodeHeader_append (h : EchoPkgHeader) (rest : List Byte) :
    (encodeHeader h ++ rest).take echoPkgHeaderLen = encodeHeader h := by
  have hl := encodeHeader_length h
  exact List.take_left' hl

theorem drop_encodeHeader_append (h : EchoPkgHeader) (rest : List Byte) :
    (encodeHeader h ++ rest).drop echoPkgHeaderLen = rest := by
  have hl := encodeHeader_length h
  exact List.drop_left' hl

theorem decodeHeader_encodeHeader (h : EchoPkgHeader) (hr : h.InRange) :
    decodeHeader (encodeHeader h) = h := by
  obtain ⟨h1, h2, h3, h4, h5, ⟨h6, h7⟩, h8⟩ := hr
  have h9 := uint32OfInt32_lt h.Code
  have h10 := int32OfUint32_uint32OfInt32 h.Code h6 h7
  cases h with
  | mk Magic LogID Sequence ServiceID Command Code Len =>
    simp only at h1 h2 h3 h4 h5 h6 h7 h8 h9 h10
    simp only [decodeHeader, encodeHeader, putUint32, putUint16, getUint32, getUint16, byteAt,
      List.cons_append, List.nil_append, List.drop_succ_cons, List.drop_zero,
      List.getD_cons_zero, List.getD_cons_succ, toByte_val, EchoPkgHeader.mk.injEq]
    generalize uint32OfInt32 Code = u at h9 h10 ⊢
    refine ⟨?_, ?_, ?_, ?_, ?_, ?_, ?_⟩
    · omega
    · omega
    · omega
    · omega
    · omega
    · rw [← h10]
      congr 1
      omega
    · omega

/-! ## Lemmas on `binaryRead`, `Marshal` and `Unmarshal` -/

theorem binaryRead_of_le (buf : List Byte) (hl : echoPkgHeaderLen ≤ buf.length) :
    binaryRead buf =
      .ok (decodeHeader (buf.take echoPkgHeaderLen), buf.drop echoPkgHeaderLen) := by
  have h32 : echoPkgHeaderLen = 32 := rfl
  unfold binaryRead
  rw [if_neg (by omega), if_neg (by omega)]

theorem binaryRead_encodeHeader (h : EchoPkgHeader) (hr : h.InRange) (rest : List Byte) :
    binaryRead (encodeHeader h ++ rest) = .ok (h, rest) := by
  have hl : echoPkgHeaderLen ≤ (encodeHeader h ++ rest).length := by
    rw [List.length_append, encodeHeader_length]
    exact Nat.le_add_right _ _
  rw [binaryRead_of_le _ hl, take_encodeHeader_append, drop_encodeHeader_append,
    decodeHeader_encodeHeader h hr]

theorem Marshal_ok (p : EchoPackage) :
    p.Marshal = .ok (encodeHeader p.H ++ toByte p.B.length :: p.B) := by
  simp [EchoPackage.Marshal, binaryWrite]

theorem Unmarshal_short (p : EchoPackage) (buf : List Byte)
    (hl : buf.length < echoPkgHeaderLen) :
    p.Unmarshal buf = { n := 0, err := some .ErrNotEnoughStream, p := p, buf := buf } := by
  unfold EchoPackage.Unmarshal
  rw [if_pos hl]

theorem Unmarshal_long (p : EchoPackage) (buf : List Byte)
    (hl : echoPkgHeaderLen ≤ buf.length) :
    p.Unmarshal buf =
      afterHeader p (decodeHeader (buf.take echoPkgHeaderLen)) (buf.drop echoPkgHeaderLen) := by
  unfold EchoPackage.Unmarshal
  rw [if_neg (by omega), binaryRead_of_le buf hl]
  rfl

theorem Unmarshal_encoded (q p : EchoPackage) (tail : List Byte)
    (hr : p.H.InRange) (hv : p.Valid) (hb : p.B.length ≤ 255) :
    q.Unmarshal (encodeHeader p.H ++ toByte p.B.length :: (p.B ++ tail)) =
      { n := p.B.length + 33, err := none, p := p, buf := tail } := by
  obtain ⟨hm, hlen⟩ := hv
  have hl : echoPkgHeaderLen ≤ (encodeHeader p.H ++ toByte p.B.length :: (p.B ++ tail)).length := by
    rw [List.length_append, encodeHeader_length]
    exact Nat.le_add_right _ _
  have hb2 : (toByte p.B.length).val = p.B.length := by
    rw [toByte_val]; omega
  rw [Unmarshal_long _ _ hl, take_encodeHeader_append, drop_encodeHeader_append,
    decodeHeader_encodeHeader _ hr]
  have g1 : ¬ (p.H.Magic ≠ echoPkgMagic) := not_not.mpr hm
  have g2 : ¬ ((toByte p.B.length :: (p.B ++ tail)).length < p.H.Len) := by
    rw [hlen, List.length_cons, List.length_append]
    omega
  have g3 : ¬ (maxEchoStringLen < (p.H.Len + 2 ^ 16 - 1) % 2 ^ 16) := by
    rw [hlen]
    unfold maxEchoStringLen
    omega
  unfold afterHeader
  rw [if_neg g1, if_neg g2, if_neg g3]
  simp only [readByte, next, hb2, List.take_left, List.drop_left, hlen, echoPkgHeaderLen]

theorem byteAt_take (d : List Byte) (n i : Nat) (hi : i < n) :
    byteAt (d.take n) i = byteAt d i := by
  unfold byteAt
  rw [List.getD_eq_getElem?_getD, List.getD_eq_getElem?_getD, List.getElem?_take_of_lt hi]

theorem byteAt_drop (d : List Byte) (n i : Nat) : byteAt (d.drop n) i = byteAt d (n + i) := by
  unfold byteAt
  rw [List.getD_eq_getElem?_getD, List.getD_eq_getElem?_getD, List.getElem?_drop]

/-- The header fields read at their offsets in the buffer itself. -/
theorem decodeHeader_take (buf : List Byte) :
    decodeHeader (buf.take echoPkgHeaderLen) = decodeHeader buf := by
  have h32 : echoPkgHeaderLen = 32 := rfl
  simp only [decodeHeader, getUint32, getUint16, byteAt_drop, h32]
  repeat rw [byteAt_take _ 32 _ (by omega)]

theorem byteAt_lt (d : List Byte) (i : Nat) : byteAt d i < 256 := (d.getD i 0).isLt

/-- The only four bytes that read as the magic number. -/
theorem take_four_of_getUint32_magic (buf : List Byte) (hl : 4 ≤ buf.length)
    (hm : getUint32 buf = echoPkgMagic) : buf.take 4 = [0x05, 0x09, 0x16, 0x20] := by
  rcases buf with _ | ⟨b0, _ | ⟨b1, _ | ⟨b2, _ | ⟨b3, rest⟩⟩⟩⟩
  · simp at hl
  · simp at hl
  · simp at hl
  · simp at hl
  · simp only [getUint32, byteAt, List.getD_cons_zero, List.getD_cons_succ, echoPkgMagic] at hm
    have h0 := b0.isLt
    have h1 := b1.isLt
    have h2 := b2.isLt
    have h3 := b3.isLt
    have e0 : b0.val = 0x05 := by omega
    have e1 : b1.val = 0x09 := by omega
    have e2 : b2.val = 0x16 := by omega
    have e3 : b3.val = 0x20 := by omega
    have f0 : b0 = 0x05 := Fin.ext e0
    have f1 : b1 = 0x09 := Fin.ext e1
    have f2 : b2 = 0x16 := Fin.ext e2
    have f3 : b3 = 0x20 := Fin.ext e3
    subst f0 f1 f2 f3
    rfl

theorem getUint32_lt (d : List Byte) : getUint32 d < 2 ^ 32 := by
  have h0 := byteAt_lt d 0
  have h1 := byteAt_lt d 1
  have h2 := byteAt_lt d 2
  have h3 := byteAt_lt d 3
  unfold getUint32
  omega

theorem getUint16_lt (d : List Byte) : getUint16 d < 2 ^ 16 := by
  have h0 := byteAt_lt d 0
  have h1 := byteAt_lt d 1
  unfold getUint16
  omega

theorem decodeHeader_encodeHeader_append (h : EchoPkgHeader) (hr : h.InRange)
    (rest : List Byte) : decodeHeader (encodeHeader h ++ rest) = h := by
  rw [← decodeHeader_take, take_encodeHeader_append, decodeHeader_encodeHeader h hr]

theorem byteAt_encodeHeader_append (h : EchoPkgHeader) (rest : List Byte) (i : Nat) :
    byteAt (encodeHeader h ++ rest) (32 + i) = byteAt rest i := by
  rw [← byteAt_drop]
  have hd := drop_encodeHeader_append h rest
  have h32 : echoPkgHeaderLen = 32 := rfl
  rw [h32] at hd
  rw [hd]

theorem byteAt_encodeHeader_reserved (h : EchoPkgHeader) (rest : List Byte) (i : Nat)
    (h1 : 26 ≤ i) (h2 : i < 32) : byteAt (encodeHeader h ++ rest) i = 0 := by
  rw [← byteAt_take _ 32 _ h2]
  have ht := take_encodeHeader_append h rest
  have h32 : echoPkgHeaderLen = 32 := rfl
  rw [h32] at ht
  rw [ht]
  interval_cases i <;> rfl

theorem Unmarshal_bad_magic (p : EchoPackage) (buf : List Byte) (hl : 32 ≤ buf.length)
    (hm : buf.take 4 ≠ [0x05, 0x09, 0x16, 0x20]) :
    (p.Unmarshal buf).err = some .ErrIllegalMagic ∧ (p.Unmarshal buf).n = 0 := by
  have hne : (decodeHeader buf).Magic ≠ echoPkgMagic :=
    fun h => hm (take_four_of_getUint32_magic buf (by omega) h)
  rw [Unmarshal_long p buf hl, decodeHeader_take]
  unfold afterHeader
  rw [if_pos hne]
  exact ⟨rfl, rfl⟩

theorem Unmarshal_encoded_short (q p : EchoPackage) (rest : List Byte)
    (hr : p.H.InRange) (hv : p.Valid) (hs : rest.length < p.B.length + 1) :
    (q.Unmarshal (encodeHeader p.H ++ rest)).err = some .ErrNotEnoughStream ∧
    (q.Unmarshal (encodeHeader p.H ++ rest)).n = 0 := by
  obtain ⟨hm, hlen⟩ := hv
  have hl : echoPkgHeaderLen ≤ (encodeHeader p.H ++ rest).length := by
    rw [List.length_append, encodeHeader_length]
    exact Nat.le_add_right _ _
  rw [Unmarshal_long _ _ hl, take_encodeHeader_append, drop_encodeHeader_append,
    decodeHeader_encodeHeader _ hr]
  unfold afterHeader
  rw [if_neg (not_not.mpr hm), if_pos (by omega)]
  exact ⟨rfl, rfl⟩

/-- What a call of `Unmarshal` that returns a `nil` error has seen and done:
the buffer holds a header with the right magic and a `Len` between 1 and 256,
at least `Len` bytes follow the header, the count is `Len + 32`, the receiver
holds the decoded header and the bytes the length byte announces, and the
buffer is left after them. -/
theorem Unmarshal_success (p : EchoPackage) (buf : List Byte)
    (h : (p.Unmarshal buf).err = none) :
    32 ≤ buf.length ∧ getUint32 buf = echoPkgMagic ∧
    1 ≤ getUint16 (buf.drop 24) ∧ getUint16 (buf.drop 24) ≤ 256 ∧
    getUint16 (buf.drop 24) + 32 ≤ buf.length ∧
    p.Unmarshal buf =
      { n := getUint16 (buf.drop 24) + 32, err := none,
        p := { H := decodeHeader buf, B := (buf.drop 33).take (byteAt buf 32) },
        buf := (buf.drop 33).drop (byteAt buf 32) } := by
  have h32 : echoPkgHeaderLen = 32 := rfl
  by_cases hs : buf.length < echoPkgHeaderLen
  · rw [Unmarshal_short p buf hs] at h
    exact absurd h (by simp)
  · have hl : echoPkgHeaderLen ≤ buf.length := Nat.le_of_not_lt hs
    rw [Unmarshal_long p buf hl, decodeHeader_take] at h ⊢
    have hL : (decodeHeader buf).Len = getUint16 (buf.drop 24) := rfl
    have hM : (decodeHeader buf).Magic = getUint32 buf := rfl
    have hlt := getUint16_lt (buf.drop 24)
    unfold afterHeader at h ⊢
    by_cases g1 : (decodeHeader buf).Magic ≠ echoPkgMagic
    · rw [if_pos g1] at h
      exact absurd h (by simp)
    · rw [if_neg g1] at h ⊢
      by_cases g2 : (buf.drop echoPkgHeaderLen).length < (decodeHeader buf).Len
      · rw [if_pos g2] at h
        exact absurd h (by simp)
      · rw [if_neg g2] at h ⊢
        by_cases g3 : maxEchoStringLen < ((decodeHeader buf).Len + 2 ^ 16 - 1) % 2 ^ 16
        · rw [if_pos g3] at h
          exact absurd h (by simp)
        · rw [if_neg g3]
          rw [hL] at g2 g3
          rw [List.length_drop, h32] at g2
          unfold maxEchoStringLen at g3
          have k1 : 1 ≤ getUint16 (buf.drop 24) := by omega
          have k2 : getUint16 (buf.drop 24) ≤ 256 := by omega
          have k3 : getUint16 (buf.drop 24) + 32 ≤ buf.length := by omega
          refine ⟨by omega, by rw [← hM]; exact not_not.mp g1, k1, k2, k3, ?_⟩
          have hb : byteAt buf 32 = byteAt (buf.drop 32) 0 := by rw [byteAt_drop]
          have hd : buf.drop 33 = (buf.drop 32).drop 1 := by rw [List.drop_drop]
          rw [hb, hd, h32, hL]
          cases hrest : buf.drop 32 with
          | nil =>
            have := congrArg List.length hrest
            rw [List.length_drop, List.length_nil] at this
            omega
          | cons b rest1 => rfl

theorem getUint32_of_take_four (buf : List Byte)
    (hm : buf.take 4 = [0x05, 0x09, 0x16, 0x20]) : getUint32 buf = echoPkgMagic := by
  have e : getUint32 buf = getUint32 (buf.take 4) := by
    unfold getUint32
    rw [byteAt_take _ 4 0 (by omega), byteAt_take _ 4 1 (by omega),
      byteAt_take _ 4 2 (by omega), byteAt_take _ 4 3 (by omega)]
  rw [e, hm]
  rfl

theorem Unmarshal_too_large (p : EchoPackage) (buf : List Byte) (hl : 32 ≤ buf.length)
    (hm : getUint32 buf = echoPkgMagic) (hL : 257 ≤ getUint16 (buf.drop 24))
    (hphys : getUint16 (buf.drop 24) ≤ (buf.drop 32).length) :
    (p.Unmarshal buf).err = some .ErrTooLargePackage ∧ (p.Unmarshal buf).n = 0 := by
  have h32 : echoPkgHeaderLen = 32 := rfl
  have hLen : (decodeHeader buf).Len = getUint16 (buf.drop 24) := rfl
  have hM : (decodeHeader buf).Magic = getUint32 buf := rfl
  have hlt := getUint16_lt (buf.drop 24)
  rw [Unmarshal_long p buf hl, decodeHeader_take]
  unfold afterHeader
  rw [if_neg (by rw [hM]; exact not_not.mpr hm), if_neg (by rw [hLen, h32]; omega),
    if_pos (by rw [hLen]; unfold maxEchoStringLen; omega)]
  exact ⟨rfl, rfl⟩

/-! ## The claims -/

/-- C1. Round trip: for a package whose fields are values of their Go types,
whose Magic is `0x20160905`, whose `Len` is `len(body)+1` and whose body has at
most 254 bytes, `Marshal` returns a buffer, and `Unmarshal` (into any
destination `q`) of that buffer succeeds, leaves the destination equal to the
original package in every header field and in the body, and returns the length
of the buffer as count. -/
theorem C1_round_trip (q p : EchoPackage) (hr : p.H.InRange) (hv : p.Valid)
    (hb : p.B.length ≤ 254) :
    ∃ out, p.Marshal = .ok out ∧
      (q.Unmarshal out).err = none ∧
      (q.Unmarshal out).p.H.Magic = p.H.Magic ∧
      (q.Unmarshal out).p.H.LogID = p.H.LogID ∧
      (q.Unmarshal out).p.H.Sequence = p.H.Sequence ∧
      (q.Unmarshal out).p.H.ServiceID = p.H.ServiceID ∧
      (q.Unmarshal out).p.H.Command = p.H.Command ∧
      (q.Unmarshal out).p.H.Code = p.H.Code ∧
      (q.Unmarshal out).p.H.Len = p.H.Len ∧
      (q.Unmarshal out).p.B = p.B ∧
      (q.Unmarshal out).n = out.length := by
  have hu := Unmarshal_encoded q p [] hr hv (by omega)
  rw [List.append_nil] at hu
  refine ⟨_, Marshal_ok p, ?_⟩
  rw [hu]
  refine ⟨rfl, rfl, rfl, rfl, rfl, rfl, rfl, rfl, rfl, ?_⟩
  simp only [List.length_append, List.length_cons, encodeHeader_length]
  omega

/-- Witness of C1 at the heartbeat request, decoded into an empty package. -/
theorem C1_round_trip_witness :
    pingPackage.H.InRange ∧ pingPackage.Valid ∧ pingPackage.B.length ≤ 254 ∧
    ∃ out, pingPackage.Marshal = .ok out ∧
      (zeroPackage.Unmarshal out).err = none ∧
      (zeroPackage.Unmarshal out).p.H.Magic = pingPackage.H.Magic ∧
      (zeroPackage.Unmarshal out).p.H.LogID = pingPackage.H.LogID ∧
      (zeroPackage.Unmarshal out).p.H.Sequence
        = pingPackage.H.Sequence ∧
      (zeroPackage.Unmarshal out).p.H.ServiceID
        = pingPackage.H.ServiceID ∧
      (zeroPackage.Unmarshal out).p.H.Command
        = pingPackage.H.Command ∧
      (zeroPackage.Unmarshal out).p.H.Code = pingPackage.H.Code ∧
      (zeroPackage.Unmarshal out).p.H.Len = pingPackage.H.Len ∧
      (zeroPackage.Unmarshal out).p.B = pingPackage.B ∧
      (zeroPackage.Unmarshal out).n = out.length :=
  ⟨by decide, by decide, by decide,
    C1_round_trip zeroPackage pingPackage (by decide) (by decide) (by decide)⟩

/-- C2, as stated, fails: on a package with a body of 256 bytes the byte at
offset 32 of the output of `Marshal` is 0, not the body length. -/
theorem C2_length_byte_counterexample :
    longBodyPackage.H.InRange ∧
    ∃ out, longBodyPackage.Marshal = .ok out ∧ longBodyPackage.B.length = 256 ∧
      byteAt out 32 = 0 ∧ byteAt out 32 ≠ longBodyPackage.B.length := by
  refine ⟨by decide, _, Marshal_ok longBodyPackage, ?_⟩
  have hb := byteAt_encodeHeader_append longBodyPackage.H
    (toByte longBodyPackage.B.length :: longBodyPackage.B) 0
  have hlen : longBodyPackage.B.length = 256 := List.length_replicate 256 0
  rw [Nat.add_zero] at hb
  rw [hb, hlen]
  refine ⟨rfl, rfl, ?_⟩
  decide

/-- C2, amended. Wire layout of `Marshal`: for every package whose fields are
values of their Go types, `Marshal` returns a buffer of `33 + len(body)`
bytes; read little-endian, bytes 0-3, 4-7, 8-11, 12-15, 16-19 are Magic,
LogID, Sequence, ServiceID, Command, bytes 20-23 are Code modulo `2 ^ 32`
(two's complement), bytes 24-25 are Len; bytes 26-31 are zero; byte 32 is
the body length modulo 256, which is the body length when the body has at
most 255 bytes; the bytes from offset 33 on are the body. -/
theorem C2_wire_layout (p : EchoPackage) (hr : p.H.InRange) :
    ∃ out, p.Marshal = .ok out ∧
      out.length = 33 + p.B.length ∧
      getUint32 out = p.H.Magic ∧
      getUint32 (out.drop 4) = p.H.LogID ∧
      getUint32 (out.drop 8) = p.H.Sequence ∧
      getUint32 (out.drop 12) = p.H.ServiceID ∧
      getUint32 (out.drop 16) = p.H.Command ∧
      ((getUint32 (out.drop 20) : Nat) : Int) = p.H.Code % 2 ^ 32 ∧
      getUint16 (out.drop 24) = p.H.Len ∧
      (∀ i, 26 ≤ i → i < 32 → byteAt out i = 0) ∧
      byteAt out 32 = p.B.length % 256 ∧
      (p.B.length ≤ 255 → byteAt out 32 = p.B.length) ∧
      out.drop 33 = p.B := by
  refine ⟨_, Marshal_ok p, ?_⟩
  have hdec := decodeHeader_encodeHeader_append p.H hr (toByte p.B.length :: p.B)
  have hb := byteAt_encodeHeader_append p.H (toByte p.B.length :: p.B) 0
  rw [Nat.add_zero] at hb
  have hb2 : byteAt (toByte p.B.length :: p.B) 0 = p.B.length % 256 := rfl
  have hd := drop_encodeHeader_append p.H (toByte p.B.length :: p.B)
  have hcode := congrArg EchoPkgHeader.Code hdec
  have hlt := getUint32_lt ((encodeHeader p.H ++ toByte p.B.length :: p.B).drop 20)
  refine ⟨?_, congrArg EchoPkgHeader.Magic hdec, congrArg EchoPkgHeader.LogID hdec,
    congrArg EchoPkgHeader.Sequence hdec, congrArg EchoPkgHeader.ServiceID hdec,
    congrArg EchoPkgHeader.Command hdec, ?_, congrArg EchoPkgHeader.Len hdec,
    fun i h1 h2 => byteAt_encodeHeader_reserved p.H _ i h1 h2, ?_, ?_, ?_⟩
  · simp only [List.length_append, List.length_cons, encodeHeader_length]
    omega
  · obtain ⟨_, _, _, _, _, ⟨h6, h7⟩, _⟩ := hr
    simp only [decodeHeader, int32OfUint32] at hcode
    split at hcode <;> omega
  · rw [hb, hb2]
  · intro hle
    rw [hb, hb2]
    omega
  · have e : (33 : Nat) = echoPkgHeaderLen + 1 := rfl
    rw [e, ← List.drop_drop, hd]
    rfl

/-- Witness of C2 at the heartbeat request. -/
theorem C2_wire_layout_witness :
    pingPackage.H.InRange ∧
    ∃ out, pingPackage.Marshal = .ok out ∧
      out.length = 33 + pingPackage.B.length ∧
      getUint32 out = pingPackage.H.Magic ∧
      getUint32 (out.drop 4) = pingPackage.H.LogID ∧
      getUint32 (out.drop 8) = pingPackage.H.Sequence ∧
      getUint32 (out.drop 12) = pingPackage.H.ServiceID ∧
      getUint32 (out.drop 16) = pingPackage.H.Command ∧
      ((getUint32 (out.drop 20) : Nat) : Int) = pingPackage.H.Code % 2 ^ 32 ∧
      getUint16 (out.drop 24) = pingPackage.H.Len ∧
      (∀ i, 26 ≤ i → i < 32 → byteAt out i = 0) ∧
      byteAt out 32 = pingPackage.B.length % 256 ∧
      (pingPackage.B.length ≤ 255 → byteAt out 32 = pingPackage.B.length) ∧
      out.drop 33 = pingPackage.B :=
  ⟨by decide, C2_wire_layout pingPackage (by decide)⟩

/-- C3. Magic gate: on every buffer of at least 32 bytes whose first four
bytes are not `05 09 16 20`, the little-endian encoding of `0x20160905`,
`Unmarshal` fails with `ErrIllegalMagic` and count 0, whatever the other bytes
are. In particular the output of `Marshal` for any package `v`, with its four
magic bytes replaced by any other four bytes `m`, is rejected in this way. -/
theorem C3_magic_gate (p : EchoPackage) (buf : List Byte) (hl : 32 ≤ buf.length)
    (hm : buf.take 4 ≠ [0x05, 0x09, 0x16, 0x20]) :
    ((p.Unmarshal buf).err = some .ErrIllegalMagic ∧ (p.Unmarshal buf).n = 0) ∧
    ∀ (v : EchoPackage) (m : List Byte), m.length = 4 → m ≠ [0x05, 0x09, 0x16, 0x20] →
      ∃ out, v.Marshal = .ok out ∧
        (p.Unmarshal (m ++ out.drop 4)).err = some .ErrIllegalMagic ∧
        (p.Unmarshal (m ++ out.drop 4)).n = 0 := by
  refine ⟨Unmarshal_bad_magic p buf hl hm, fun v m hm4 hne => ⟨_, Marshal_ok v, ?_⟩⟩
  apply Unmarshal_bad_magic
  · simp only [List.length_append, List.length_drop, List.length_cons, encodeHeader_length]
    omega
  · rw [List.take_left' hm4]
    exact hne

/-- Witness of C3: the heartbeat request with its first byte changed. -/
theorem C3_magic_gate_witness :
    32 ≤ ((0x06 : Byte) :: (encodeHeader pingPackage.H ++ [4, 0x70, 0x69, 0x6e, 0x67]).drop 1).length ∧
    (((0x06 : Byte) :: (encodeHeader pingPackage.H ++ [4, 0x70, 0x69, 0x6e, 0x67]).drop 1).take 4
      ≠ [0x05, 0x09, 0x16, 0x20]) ∧
    (((pingPackage.Unmarshal
        ((0x06 : Byte) :: (encodeHeader pingPackage.H ++ [4, 0x70, 0x69, 0x6e, 0x67]).drop 1)).err
        = some .ErrIllegalMagic ∧
      (pingPackage.Unmarshal
        ((0x06 : Byte) :: (encodeHeader pingPackage.H ++ [4, 0x70, 0x69, 0x6e, 0x67]).drop 1)).n
        = 0) ∧
    ∀ (v : EchoPackage) (m : List Byte), m.length = 4 → m ≠ [0x05, 0x09, 0x16, 0x20] →
      ∃ out, v.Marshal = .ok out ∧
        (pingPackage.Unmarshal (m ++ out.drop 4)).err = some .ErrIllegalMagic ∧
        (pingPackage.Unmarshal (m ++ out.drop 4)).n = 0) :=
  ⟨by decide, by decide, C3_magic_gate pingPackage _ (by decide) (by decide)⟩

/-- C4. Truncated input: for a valid package (fields of their Go types, Magic
`0x20160905`, `Len = len(body)+1`, body of at most 254 bytes) `Marshal`
returns a buffer, and on the first `n` bytes of it, for every `n` smaller than
its length (0 included), `Unmarshal` fails with `ErrNotEnoughStream` and
count 0. -/
theorem C4_truncated_input (q p : EchoPackage) (hr : p.H.InRange) (hv : p.Valid)
    (_hb : p.B.length ≤ 254) :
    ∃ out, p.Marshal = .ok out ∧
      ∀ n, n < out.length →
        (q.Unmarshal (out.take n)).err = some .ErrNotEnoughStream ∧
        (q.Unmarshal (out.take n)).n = 0 := by
  refine ⟨_, Marshal_ok p, fun n hn => ?_⟩
  have hel := encodeHeader_length p.H
  simp only [List.length_append, List.length_cons, hel] at hn
  by_cases h32 : n < 32
  · have hs : (List.take n (encodeHeader p.H ++ toByte p.B.length :: p.B)).length
        < echoPkgHeaderLen := by
      rw [List.length_take]
      exact lt_of_le_of_lt (Nat.min_le_left _ _) h32
    rw [Unmarshal_short q _ hs]
    exact ⟨rfl, rfl⟩
  · have ht : List.take n (encodeHeader p.H ++ toByte p.B.length :: p.B)
        = encodeHeader p.H ++ List.take (n - 32) (toByte p.B.length :: p.B) := by
      rw [List.take_append_eq_append_take, hel, List.take_of_length_le (by omega)]
    rw [ht]
    apply Unmarshal_encoded_short q p _ hr hv
    rw [List.length_take, List.length_cons]
    omega

/-- Witness of C4 at the heartbeat request, cut after 36 of its 37 bytes. -/
theorem C4_truncated_input_witness :
    pingPackage.H.InRange ∧ pingPackage.Valid ∧ pingPackage.B.length ≤ 254 ∧
    ∃ out, pingPackage.Marshal = .ok out ∧
      ∀ n, n < out.length →
        (zeroPackage.Unmarshal (out.take n)).err
          = some .ErrNotEnoughStream ∧
        (zeroPackage.Unmarshal (out.take n)).n = 0 :=
  ⟨by decide, by decide, by decide,
    C4_truncated_input zeroPackage pingPackage (by decide) (by decide)
      (by decide)⟩

/-- C5, as stated, fails: the encoding of a valid package with a body of 254
bytes has the right magic, `Len = 255` and 255 bytes after the header, and
`Unmarshal` accepts it with count 287 instead of failing with
`ErrTooLargePackage`. -/
theorem C5_len_255_accepted_counterexample :
    ∃ out, maxBodyPackage.Marshal = .ok out ∧
      32 ≤ out.length ∧ out.take 4 = [0x05, 0x09, 0x16, 0x20] ∧
      getUint16 (out.drop 24) = 255 ∧ getUint16 (out.drop 24) ≤ (out.drop 32).length ∧
      (zeroPackage.Unmarshal out).err = none ∧
      (zeroPackage.Unmarshal out).n = 287 ∧
      (zeroPackage.Unmarshal out).err
        ≠ some .ErrTooLargePackage := by
  have hr : maxBodyPackage.H.InRange := by decide
  have hlen : maxBodyPackage.B.length = 254 := List.length_replicate 254 _
  have hv : maxBodyPackage.Valid := ⟨rfl, by rw [hlen]; rfl⟩
  have hu := Unmarshal_encoded zeroPackage maxBodyPackage [] hr hv
    (by rw [hlen]; omega)
  rw [List.append_nil] at hu
  have hdec := decodeHeader_encodeHeader_append maxBodyPackage.H hr
    (toByte maxBodyPackage.B.length :: maxBodyPackage.B)
  have hL : getUint16 ((encodeHeader maxBodyPackage.H ++
      toByte maxBodyPackage.B.length :: maxBodyPackage.B).drop 24) = 255 :=
    congrArg EchoPkgHeader.Len hdec
  have hd := drop_encodeHeader_append maxBodyPackage.H
    (toByte maxBodyPackage.B.length :: maxBodyPackage.B)
  have h32 : echoPkgHeaderLen = 32 := rfl
  rw [h32] at hd
  refine ⟨_, Marshal_ok maxBodyPackage, ?_, rfl, hL, ?_, ?_, ?_, ?_⟩
  · simp only [List.length_append, List.length_cons, encodeHeader_length]
    omega
  · rw [hL, hd, List.length_cons, hlen]
  · rw [hu]
  · rw [hu, hlen]
  · rw [hu]
    simp

/-- C5, amended. Oversize rejection: on every buffer of at least 32 bytes with
the right magic whose header `Len` is 257 or larger (a declared body of more
than 255 bytes) and which holds at least `Len` bytes after the header,
`Unmarshal` fails with `ErrTooLargePackage` and count 0. -/
theorem C5_oversize_rejection (p : EchoPackage) (buf : List Byte) (hl : 32 ≤ buf.length)
    (hm : buf.take 4 = [0x05, 0x09, 0x16, 0x20]) (hL : 257 ≤ getUint16 (buf.drop 24))
    (hphys : getUint16 (buf.drop 24) ≤ (buf.drop 32).length) :
    (p.Unmarshal buf).err = some .ErrTooLargePackage ∧ (p.Unmarshal buf).n = 0 :=
  Unmarshal_too_large p buf hl (getUint32_of_take_four buf hm) hL hphys

/-- Witness of C5 at a buffer with `Len = 257` and 257 bytes after the
header. -/
theorem C5_oversize_rejection_witness :
    32 ≤ oversizeBuffer.length ∧ oversizeBuffer.take 4 = [0x05, 0x09, 0x16, 0x20] ∧
    257 ≤ getUint16 (oversizeBuffer.drop 24) ∧
    getUint16 (oversizeBuffer.drop 24) ≤ (oversizeBuffer.drop 32).length ∧
    (pingPackage.Unmarshal oversizeBuffer).err = some .ErrTooLargePackage ∧
    (pingPackage.Unmarshal oversizeBuffer).n = 0 :=
  ⟨by decide, by decide, by decide, by decide,
    C5_oversize_rejection pingPackage oversizeBuffer (by decide) (by decide) (by decide)
      (by decide)⟩

/-- C6. Two packets in one buffer: for two valid packages `p1` and `p2`
(fields of their Go types, Magic `0x20160905`, `Len = len(body)+1`, body of at
most 254 bytes) with encodings `o1` and `o2`, `Unmarshal` on `o1 ++ o2`
succeeds with the package `p1` and count `len(o1)` and leaves exactly `o2`
unread; a second `Unmarshal` on what is left succeeds with the package `p2`
and count `len(o2)`, and leaves nothing. -/
theorem C6_two_packets (q1 q2 p1 p2 : EchoPackage)
    (hr1 : p1.H.InRange) (hv1 : p1.Valid) (hb1 : p1.B.length ≤ 254)
    (hr2 : p2.H.InRange) (hv2 : p2.Valid) (hb2 : p2.B.length ≤ 254) :
    ∃ o1 o2, p1.Marshal = .ok o1 ∧ p2.Marshal = .ok o2 ∧
      (q1.Unmarshal (o1 ++ o2)).err = none ∧
      (q1.Unmarshal (o1 ++ o2)).p = p1 ∧
      (q1.Unmarshal (o1 ++ o2)).n = o1.length ∧
      (q1.Unmarshal (o1 ++ o2)).buf = o2 ∧
      (q2.Unmarshal (q1.Unmarshal (o1 ++ o2)).buf).err = none ∧
      (q2.Unmarshal (q1.Unmarshal (o1 ++ o2)).buf).p = p2 ∧
      (q2.Unmarshal (q1.Unmarshal (o1 ++ o2)).buf).n = o2.length ∧
      (q2.Unmarshal (q1.Unmarshal (o1 ++ o2)).buf).buf = [] := by
  refine ⟨_, _, Marshal_ok p1, Marshal_ok p2, ?_⟩
  have hu1 := Unmarshal_encoded q1 p1 (encodeHeader p2.H ++ toByte p2.B.length :: p2.B)
    hr1 hv1 (by omega)
  have hu2 := Unmarshal_encoded q2 p2 [] hr2 hv2 (by omega)
  rw [List.append_nil] at hu2
  have e : (encodeHeader p1.H ++ toByte p1.B.length :: p1.B) ++
      (encodeHeader p2.H ++ toByte p2.B.length :: p2.B)
      = encodeHeader p1.H ++ toByte p1.B.length ::
        (p1.B ++ (encodeHeader p2.H ++ toByte p2.B.length :: p2.B)) := by
    rw [List.append_assoc, List.cons_append]
  rw [e, hu1]
  refine ⟨rfl, rfl, ?_, rfl, ?_⟩
  · simp only [List.length_append, List.length_cons, encodeHeader_length]
    omega
  · change (q2.Unmarshal (encodeHeader p2.H ++ toByte p2.B.length :: p2.B)).err = none ∧
      (q2.Unmarshal (encodeHeader p2.H ++ toByte p2.B.length :: p2.B)).p = p2 ∧
      (q2.Unmarshal (encodeHeader p2.H ++ toByte p2.B.length :: p2.B)).n
        = (encodeHeader p2.H ++ toByte p2.B.length :: p2.B).length ∧
      (q2.Unmarshal (encodeHeader p2.H ++ toByte p2.B.length :: p2.B)).buf = []
    rw [hu2]
    refine ⟨rfl, rfl, ?_, rfl⟩
    simp only [List.length_append, List.length_cons, encodeHeader_length]
    omega

/-- Witness of C6: the heartbeat request followed by an echo request. -/
theorem C6_two_packets_witness :
    pingPackage.H.InRange ∧ pingPackage.Valid ∧ pingPackage.B.length ≤ 254 ∧
    helloPackage.H.InRange ∧ helloPackage.Valid ∧ helloPackage.B.length ≤ 254 ∧
    ∃ o1 o2, pingPackage.Marshal = .ok o1 ∧ helloPackage.Marshal = .ok o2 ∧
      (zeroPackage.Unmarshal (o1 ++ o2)).err = none ∧
      (zeroPackage.Unmarshal (o1 ++ o2)).p = pingPackage ∧
      (zeroPackage.Unmarshal (o1 ++ o2)).n = o1.length ∧
      (zeroPackage.Unmarshal (o1 ++ o2)).buf = o2 ∧
      (zeroPackage.Unmarshal (zeroPackage.Unmarshal (o1 ++ o2)).buf).err = none ∧
      (zeroPackage.Unmarshal (zeroPackage.Unmarshal (o1 ++ o2)).buf).p = helloPackage ∧
      (zeroPackage.Unmarshal (zeroPackage.Unmarshal (o1 ++ o2)).buf).n = o2.length ∧
      (zeroPackage.Unmarshal (zeroPackage.Unmarshal (o1 ++ o2)).buf).buf = [] :=
  ⟨by decide, by decide, by decide, by decide, by decide, by decide,
    C6_two_packets zeroPackage zeroPackage pingPackage helloPackage
      (by decide) (by decide) (by decide) (by decide) (by decide) (by decide)⟩

/-- C7, as stated, fails: on `slackBuffer` the call succeeds and returns 37,
while 32 + 1 + the length byte is 33. -/
theorem C7_count_from_header_counterexample :
    (pingPackage.Unmarshal slackBuffer).err = none ∧
    (pingPackage.Unmarshal slackBuffer).n = 37 ∧
    byteAt slackBuffer 32 = 0 ∧
    (pingPackage.Unmarshal slackBuffer).n ≠ 32 + 1 + byteAt slackBuffer 32 := by
  decide

/-- C7, amended. Consumed length: on every buffer on which `Unmarshal`
succeeds, the returned count is 32 plus the header field `Len` (bytes 24-25
read little-endian); it is 32 + 1 + the length byte (offset 32) when `Len` is
the length byte plus 1. -/
theorem C7_returned_count (p : EchoPackage) (buf : List Byte)
    (h : (p.Unmarshal buf).err = none) :
    (p.Unmarshal buf).n = 32 + getUint16 (buf.drop 24) ∧
    (getUint16 (buf.drop 24) = byteAt buf 32 + 1 →
      (p.Unmarshal buf).n = 32 + 1 + byteAt buf 32) := by
  obtain ⟨_, _, _, _, _, hu⟩ := Unmarshal_success p buf h
  have hn : (p.Unmarshal buf).n = getUint16 (buf.drop 24) + 32 := by rw [hu]
  exact ⟨by omega, fun hlen => by omega⟩

/-- Witness of C7 at `slackBuffer`. -/
theorem C7_returned_count_witness :
    (pingPackage.Unmarshal slackBuffer).err = none ∧
    (pingPackage.Unmarshal slackBuffer).n = 32 + getUint16 (slackBuffer.drop 24) ∧
    (getUint16 (slackBuffer.drop 24) = byteAt slackBuffer 32 + 1 →
      (pingPackage.Unmarshal slackBuffer).n = 32 + 1 + byteAt slackBuffer 32) :=
  ⟨by decide, C7_returned_count pingPackage slackBuffer (by decide)⟩

/-- C8. The heartbeat scenario: `Marshal` of the package with Magic
`0x20160905`, LogID 1, Sequence 1, ServiceID 0, Command 0, Code 0, Len 5 and
body "ping" returns a buffer of 37 bytes whose bytes 0-3 are `05 09 16 20`,
whose byte 16 is 0 and whose bytes 33-36 are the ASCII bytes of "ping";
`Unmarshal` of it, into any destination, succeeds with count 37, body "ping"
and a command whose name is "heartbeat". -/
theorem C8_heartbeat_scenario (q : EchoPackage) :
    ∃ out,
      EchoPackage.Marshal
        { H := { Magic := 0x20160905, LogID := 1, Sequence := 1, ServiceID := 0,
                 Command := 0, Code := 0, Len := 5 }
          B := asciiBytes "ping" } = .ok out ∧
      out.length = 37 ∧
      out.take 4 = [0x05, 0x09, 0x16, 0x20] ∧
      byteAt out 16 = 0 ∧
      out.drop 33 = [0x70, 0x69, 0x6e, 0x67] ∧
      asciiBytes "ping" = [0x70, 0x69, 0x6e, 0x67] ∧
      (q.Unmarshal out).err = none ∧
      (q.Unmarshal out).n = 37 ∧
      (q.Unmarshal out).p.B = asciiBytes "ping" ∧
      echoCommand.String (q.Unmarshal out).p.H.Command = some "heartbeat" := by
  have hu := Unmarshal_encoded q pingPackage [] (by decide) (by decide) (by decide)
  rw [List.append_nil] at hu
  refine ⟨_, Marshal_ok pingPackage, by decide, by decide, by decide, by decide, by decide,
    ?_, ?_, ?_, ?_⟩
  · exact congrArg UnmarshalResult.err hu
  · exact (congrArg UnmarshalResult.n hu).trans (by decide)
  · exact congrArg (fun r => r.p.B) hu
  · rw [hu]
    decide

/-- C9. Typed failures only: on every buffer `Unmarshal` (a total function:
none of its steps can fault) returns either a `nil` error, or one of
`ErrNotEnoughStream`, `ErrIllegalMagic`, `ErrTooLargePackage` together with
count 0; and whenever the first length check lets the buffer through, the read
of the header succeeds, so the branch handing on its error is never taken. -/
theorem C9_typed_failures (p : EchoPackage) (buf : List Byte) :
    ((p.Unmarshal buf).err = none ∨
      (((p.Unmarshal buf).err = some .ErrNotEnoughStream ∨
        (p.Unmarshal buf).err = some .ErrIllegalMagic ∨
        (p.Unmarshal buf).err = some .ErrTooLargePackage) ∧
       (p.Unmarshal buf).n = 0)) ∧
    (buf.length < echoPkgHeaderLen ∨ ∃ h rest, binaryRead buf = .ok (h, rest)) := by
  by_cases hs : buf.length < echoPkgHeaderLen
  · rw [Unmarshal_short p buf hs]
    exact ⟨Or.inr ⟨Or.inl rfl, rfl⟩, Or.inl hs⟩
  · have hl : echoPkgHeaderLen ≤ buf.length := Nat.le_of_not_lt hs
    refine ⟨?_, Or.inr ⟨_, _, binaryRead_of_le buf hl⟩⟩
    rw [Unmarshal_long p buf hl]
    unfold afterHeader
    split
    · exact Or.inr ⟨Or.inr (Or.inl rfl), rfl⟩
    · split
      · exact Or.inr ⟨Or.inl rfl, rfl⟩
      · split
        · exact Or.inr ⟨Or.inr (Or.inr rfl), rfl⟩
        · split
          · exact Or.inl rfl
          · exact Or.inl rfl

/-- C10, evaluated on the code. `echoCommand.String` gives "heartbeat" for 0
and "echo" for 1, and faults for 2: there is no fallback name. The encoding
of `unknownCommandPackage` is decoded successfully with command 2, and
`EchoPackage.String` faults on the decoded package. -/
theorem C10_unknown_command_faults :
    echoCommand.String 0 = some "heartbeat" ∧
    echoCommand.String 1 = some "echo" ∧
    echoCommand.String 2 = none ∧
    unknownCommandPackage.Marshal
      = .ok (encodeHeader unknownCommandPackage.H ++ [0]) ∧
    (zeroPackage.Unmarshal (encodeHeader unknownCommandPackage.H ++ [0])).err = none ∧
    (zeroPackage.Unmarshal (encodeHeader unknownCommandPackage.H ++ [0])).n = 33 ∧
    (zeroPackage.Unmarshal (encodeHeader unknownCommandPackage.H ++ [0])).p.H.Command = 2 ∧
    EchoPackage.String (zeroPackage.Unmarshal (encodeHeader unknownCommandPackage.H ++ [0])).p
      = none :=
  ⟨by decide, by decide, by decide, rfl, by decide, by decide, by decide, by decide⟩

/-- C11. The read of the length byte cannot fail: when the header read
returns a header `h` and leaves `rest`, and the magic, availability and
oversize checks let them through, then `h.Len` is at least 1, `rest` holds at
least one byte and `ReadByte` on it succeeds. Equivalently, on no buffer does
`Unmarshal` return count 0 together with a `nil` error. -/
theorem C11_length_byte_read (p : EchoPackage) (buf : List Byte) :
    ¬ ((p.Unmarshal buf).n = 0 ∧ (p.Unmarshal buf).err = none) ∧
    ∀ h rest, binaryRead buf = .ok (h, rest) →
      h.Magic = echoPkgMagic →
      ¬ rest.length < h.Len →
      ¬ maxEchoStringLen < (h.Len + 2 ^ 16 - 1) % 2 ^ 16 →
      1 ≤ h.Len ∧ 1 ≤ rest.length ∧ ∃ len rest1, readByte rest = .ok (len, rest1) := by
  constructor
  · rintro ⟨hn, he⟩
    obtain ⟨_, _, _, _, _, hu⟩ := Unmarshal_success p buf he
    rw [hu] at hn
    simp at hn
  · intro h rest _ _ g2 g3
    unfold maxEchoStringLen at g3
    have k1 : 1 ≤ h.Len := by omega
    have k2 : 1 ≤ rest.length := by omega
    refine ⟨k1, k2, ?_⟩
    cases rest with
    | nil => simp at k2
    | cons b r => exact ⟨b, r, rfl⟩

/-- C11 at the encoding of the heartbeat request: its header read succeeds,
the three checks pass, and the length byte is read. -/
theorem C11_length_byte_read_witness :
    ¬ ((zeroPackage.Unmarshal pingBuffer).n = 0 ∧ (zeroPackage.Unmarshal pingBuffer).err = none) ∧
    (1 ≤ pingPackage.H.Len ∧ 1 ≤ ([4, 0x70, 0x69, 0x6e, 0x67] : List Byte).length ∧
      ∃ len rest1, readByte ([4, 0x70, 0x69, 0x6e, 0x67] : List Byte) = .ok (len, rest1)) :=
  ⟨(C11_length_byte_read zeroPackage pingBuffer).1,
    (C11_length_byte_read zeroPackage pingBuffer).2
      pingPackage.H [4, 0x70, 0x69, 0x6e, 0x67]
      (binaryRead_encodeHeader pingPackage.H (by decide) _) rfl (by decide) (by decide)⟩

/-- C12, as stated, fails: on `shortBodyBuffer` the call succeeds, the length
byte is 5, and the decoded body has the two bytes that were there. -/
theorem C12_short_body_counterexample :
    (zeroPackage.Unmarshal shortBodyBuffer).err = none ∧
    (zeroPackage.Unmarshal shortBodyBuffer).n = 35 ∧
    byteAt shortBodyBuffer 32 = 5 ∧
    (zeroPackage.Unmarshal shortBodyBuffer).p.B = [0x61, 0x62] ∧
    (zeroPackage.Unmarshal shortBodyBuffer).p.B.length ≠ byteAt shortBodyBuffer 32 := by
  decide

/-- C12, amended. Body extraction: on every buffer on which `Unmarshal`
succeeds, the decoded body is made of the input bytes from offset 33 on, as
many as the length byte (offset 32) announces or, when fewer are there, all of
them: it has `min (length byte) (len(buf) - 33)` bytes. When the buffer holds
`33 + length byte` bytes or more, the body has exactly as many bytes as the
length byte announces, the input bytes at offsets 33 to 33 + length byte - 1. -/
theorem C12_body_extraction (p : EchoPackage) (buf : List Byte)
    (h : (p.Unmarshal buf).err = none) :
    (p.Unmarshal buf).p.B = (buf.drop 33).take (byteAt buf 32) ∧
    (p.Unmarshal buf).p.B.length = min (byteAt buf 32) (buf.length - 33) ∧
    (33 + byteAt buf 32 ≤ buf.length →
      (p.Unmarshal buf).p.B.length = byteAt buf 32 ∧
      ∀ i, i < byteAt buf 32 → byteAt (p.Unmarshal buf).p.B i = byteAt buf (33 + i)) := by
  obtain ⟨_, _, _, _, _, hu⟩ := Unmarshal_success p buf h
  have hB : (p.Unmarshal buf).p.B = (buf.drop 33).take (byteAt buf 32) := by rw [hu]
  have hlen : (p.Unmarshal buf).p.B.length = min (byteAt buf 32) (buf.length - 33) := by
    rw [hB, List.length_take, List.length_drop]
  refine ⟨hB, hlen, fun hle => ⟨by omega, fun i hi => ?_⟩⟩
  rw [hB, byteAt_take _ _ _ hi, byteAt_drop]

/-- Witness of C12 at the encoded heartbeat request. -/
theorem C12_body_extraction_witness :
    (zeroPackage.Unmarshal pingBuffer).err = none ∧
    (zeroPackage.Unmarshal pingBuffer).p.B = (pingBuffer.drop 33).take (byteAt pingBuffer 32) ∧
    (zeroPackage.Unmarshal pingBuffer).p.B.length
      = min (byteAt pingBuffer 32) (pingBuffer.length - 33) ∧
    (33 + byteAt pingBuffer 32 ≤ pingBuffer.length →
      (zeroPackage.Unmarshal pingBuffer).p.B.length = byteAt pingBuffer 32 ∧
      ∀ i, i < byteAt pingBuffer 32 →
        byteAt (zeroPackage.Unmarshal pingBuffer).p.B i = byteAt pingBuffer (33 + i)) :=
  ⟨by decide, C12_body_extraction zeroPackage pingBuffer (by decide)⟩

/-- C13, as stated, fails: on the first 36 bytes of the encoded heartbeat
request `Unmarshal` returns `ErrNotEnoughStream` after it has taken the 32
header bytes out of the buffer and written the header into the destination;
with the missing byte appended to what is left in that buffer, a second call
on the same destination returns `ErrNotEnoughStream` again and leaves the
body empty. -/
theorem C13_header_consumed_counterexample :
    (zeroPackage.Unmarshal (pingBuffer.take 36)).err = some .ErrNotEnoughStream ∧
    (zeroPackage.Unmarshal (pingBuffer.take 36)).buf = [4, 0x70, 0x69, 0x6e] ∧
    (zeroPackage.Unmarshal (pingBuffer.take 36)).buf ≠ pingBuffer.take 36 ∧
    (zeroPackage.Unmarshal (pingBuffer.take 36)).p.H = pingPackage.H ∧
    (zeroPackage.Unmarshal (pingBuffer.take 36)).p ≠ zeroPackage ∧
    ((zeroPackage.Unmarshal (pingBuffer.take 36)).p.Unmarshal
      ((zeroPackage.Unmarshal (pingBuffer.take 36)).buf ++ pingBuffer.drop 36)).err
      = some .ErrNotEnoughStream ∧
    ((zeroPackage.Unmarshal (pingBuffer.take 36)).p.Unmarshal
      ((zeroPackage.Unmarshal (pingBuffer.take 36)).buf ++ pingBuffer.drop 36)).p
      ≠ pingPackage := by
  decide

/-- C13, amended. Whenever `Unmarshal` returns `ErrNotEnoughStream`, the count
is 0. On a buffer of fewer than 32 bytes it has taken nothing out of the
buffer and has not modified the destination; on a buffer of 32 bytes or more
it has taken the 32 header bytes out of the buffer and has written the decoded
header into the destination, whose body it has not modified. When the bytes
of the buffer, followed by some missing bytes, are the encoding of a valid
package `v`, then `Unmarshal` on a buffer holding all these bytes, into any
destination, decodes `v`. -/
theorem C13_not_enough_stream (p : EchoPackage) (buf : List Byte)
    (h : (p.Unmarshal buf).err = some .ErrNotEnoughStream) :
    (p.Unmarshal buf).n = 0 ∧
    (buf.length < 32 → (p.Unmarshal buf).buf = buf ∧ (p.Unmarshal buf).p = p) ∧
    (32 ≤ buf.length →
      (p.Unmarshal buf).buf = buf.drop 32 ∧
      (p.Unmarshal buf).p = { H := decodeHeader buf, B := p.B }) ∧
    ∀ (v : EchoPackage) (missing : List Byte),
      v.H.InRange → v.Valid → v.B.length ≤ 254 → v.Marshal = .ok (buf ++ missing) →
      ∀ q : EchoPackage,
        (q.Unmarshal (buf ++ missing)).err = none ∧
        (q.Unmarshal (buf ++ missing)).p = v ∧
        (q.Unmarshal (buf ++ missing)).n = (buf ++ missing).length := by
  have h32 : echoPkgHeaderLen = 32 := rfl
  refine ⟨?_, ?_, ?_, ?_⟩
  · by_cases hs : buf.length < echoPkgHeaderLen
    · rw [Unmarshal_short p buf hs]
    · obtain hc := (Unmarshal_long p buf (Nat.le_of_not_lt hs))
      rw [hc] at h ⊢
      unfold afterHeader at h ⊢
      split
      · rfl
      · split
        · rfl
        · split
          · rfl
          · rename_i g1 g2 g3
            rw [if_neg g1, if_neg g2, if_neg g3] at h
            split at h <;> simp at h
  · intro hs
    rw [Unmarshal_short p buf (by omega)]
    exact ⟨rfl, rfl⟩
  · intro hl
    obtain hc := (Unmarshal_long p buf (by omega))
    rw [hc, decodeHeader_take] at h ⊢
    unfold afterHeader at h ⊢
    split
    · exact ⟨rfl, rfl⟩
    · split
      · exact ⟨rfl, rfl⟩
      · split
        · exact ⟨rfl, rfl⟩
        · rename_i g1 g2 g3
          rw [if_neg g1, if_neg g2, if_neg g3] at h
          split at h <;> simp at h
  · intro v missing hr hv hb hm q
    have hout : buf ++ missing = encodeHeader v.H ++ toByte v.B.length :: v.B := by
      have e := (Marshal_ok v).symm.trans hm
      exact (Except.ok.inj e).symm
    have hu := Unmarshal_encoded q v [] hr hv (by omega)
    rw [List.append_nil] at hu
    rw [hout, hu]
    refine ⟨rfl, rfl, ?_⟩
    simp only [List.length_append, List.length_cons, encodeHeader_length]
    omega

/-- Witness of C13 at the first 36 bytes of the encoded heartbeat request. -/
theorem C13_not_enough_stream_witness :
    (zeroPackage.Unmarshal (pingBuffer.take 36)).err = some .ErrNotEnoughStream ∧
    (zeroPackage.Unmarshal (pingBuffer.take 36)).n = 0 ∧
    (zeroPackage.Unmarshal (pingBuffer.take 36)).buf = (pingBuffer.take 36).drop 32 ∧
    (zeroPackage.Unmarshal (pingBuffer.take 36)).p
      = { H := decodeHeader (pingBuffer.take 36), B := zeroPackage.B } ∧
    (zeroPackage.Unmarshal (pingBuffer.take 36 ++ [0x67])).err = none ∧
    (zeroPackage.Unmarshal (pingBuffer.take 36 ++ [0x67])).p = pingPackage ∧
    (zeroPackage.Unmarshal (pingBuffer.take 36 ++ [0x67])).n
      = (pingBuffer.take 36 ++ [0x67]).length :=
  ⟨by decide,
    (C13_not_enough_stream zeroPackage (pingBuffer.take 36) (by decide)).1,
    ((C13_not_enough_stream zeroPackage (pingBuffer.take 36) (by decide)).2.2.1 (by decide)).1,
    ((C13_not_enough_stream zeroPackage (pingBuffer.take 36) (by decide)).2.2.1 (by decide)).2,
    (C13_not_enough_stream zeroPackage (pingBuffer.take 36) (by decide)).2.2.2
      pingPackage [0x67] (by decide) (by decide) (by decide) rfl zeroPackage⟩

/-- C14. `Marshal` validates nothing: for every package, whatever its Magic,
its `Len` and the length of its body, it returns a buffer with a `nil` error;
the buffer has `33 + len(body)` bytes, its byte at offset 32 is
`len(body) mod 256`, and from offset 33 on it holds every byte of the body. -/
theorem C14_marshal_no_validation (p : EchoPackage) :
    ∃ out, p.Marshal = .ok out ∧
      out.length = 33 + p.B.length ∧
      byteAt out 32 = p.B.length % 256 ∧
      out.drop 33 = p.B := by
  refine ⟨_, Marshal_ok p, ?_, ?_, ?_⟩
  · simp only [List.length_append, List.length_cons, encodeHeader_length]
    omega
  · have hb := byteAt_encodeHeader_append p.H (toByte p.B.length :: p.B) 0
    rw [Nat.add_zero] at hb
    rw [hb]
    rfl
  · have hd := drop_encodeHeader_append p.H (toByte p.B.length :: p.B)
    have e : (33 : Nat) = echoPkgHeaderLen + 1 := rfl
    rw [e, ← List.drop_drop, hd]
    rfl

/-- The header fields are read from the first 26 bytes only. -/
theorem decodeHeader_take_26 (buf : List Byte) :
    decodeHeader (buf.take 26) = decodeHeader buf := by
  simp only [decodeHeader, getUint32, getUint16, byteAt_drop]
  repeat rw [byteAt_take _ 26 _ (by omega)]

/-- The outcome of `Unmarshal` on a buffer of at least 32 bytes that passes
all checks. -/
theorem Unmarshal_accepts (p : EchoPackage) (buf : List Byte) (hl : 32 ≤ buf.length)
    (hm : getUint32 buf = echoPkgMagic) (h1 : 1 ≤ getUint16 (buf.drop 24))
    (h2 : getUint16 (buf.drop 24) ≤ 256) (h3 : getUint16 (buf.drop 24) ≤ buf.length - 32) :
    (p.Unmarshal buf).err = none ∧ (p.Unmarshal buf).n = getUint16 (buf.drop 24) + 32 := by
  have h32 : echoPkgHeaderLen = 32 := rfl
  have hLen : (decodeHeader buf).Len = getUint16 (buf.drop 24) := rfl
  have hM : (decodeHeader buf).Magic = getUint32 buf := rfl
  rw [Unmarshal_long p buf (by omega), decodeHeader_take]
  unfold afterHeader
  rw [if_neg (by rw [hM]; exact not_not.mpr hm),
    if_neg (by rw [hLen, h32, List.length_drop]; omega),
    if_neg (by rw [hLen]; unfold maxEchoStringLen; omega)]
  cases hrest : buf.drop echoPkgHeaderLen with
  | nil =>
    have := congrArg List.length hrest
    rw [List.length_drop, List.length_nil] at this
    omega
  | cons b rest1 => exact ⟨rfl, rfl⟩

theorem Unmarshal_not_enough (p : EchoPackage) (buf : List Byte) (hl : 32 ≤ buf.length)
    (hm : getUint32 buf = echoPkgMagic) (h3 : buf.length - 32 < getUint16 (buf.drop 24)) :
    (p.Unmarshal buf).err = some .ErrNotEnoughStream := by
  have h32 : echoPkgHeaderLen = 32 := rfl
  have hLen : (decodeHeader buf).Len = getUint16 (buf.drop 24) := rfl
  have hM : (decodeHeader buf).Magic = getUint32 buf := rfl
  rw [Unmarshal_long p buf (by omega), decodeHeader_take]
  unfold afterHeader
  rw [if_neg (by rw [hM]; exact not_not.mpr hm),
    if_pos (by rw [hLen, h32, List.length_drop]; omega)]

theorem Unmarshal_zero_len (p : EchoPackage) (buf : List Byte) (hl : 32 ≤ buf.length)
    (hm : getUint32 buf = echoPkgMagic) (h0 : getUint16 (buf.drop 24) = 0) :
    (p.Unmarshal buf).err = some .ErrTooLargePackage := by
  have h32 : echoPkgHeaderLen = 32 := rfl
  have hLen : (decodeHeader buf).Len = getUint16 (buf.drop 24) := rfl
  have hM : (decodeHeader buf).Magic = getUint32 buf := rfl
  rw [Unmarshal_long p buf (by omega), decodeHeader_take]
  unfold afterHeader
  rw [if_neg (by rw [hM]; exact not_not.mpr hm),
    if_neg (by rw [hLen, h0]; exact Nat.not_lt_zero _),
    if_pos (by rw [hLen, h0]; decide)]

/-- C15. Reserved bytes are not examined: for two buffers of the same length
with the same first 26 bytes and the same bytes from offset 32 on, that is,
two buffers that differ at offsets 26 to 31 only, `Unmarshal` into the same
destination returns the same error and the same count and leaves the same
package in the destination; when the buffers hold 32 bytes or more it also
leaves the same bytes unread. -/
theorem C15_reserved_bytes_unexamined (p : EchoPackage) (b1 b2 : List Byte)
    (hlen : b1.length = b2.length) (hhead : b1.take 26 = b2.take 26)
    (htail : b1.drop 32 = b2.drop 32) :
    (p.Unmarshal b1).err = (p.Unmarshal b2).err ∧
    (p.Unmarshal b1).n = (p.Unmarshal b2).n ∧
    (p.Unmarshal b1).p = (p.Unmarshal b2).p ∧
    (32 ≤ b1.length → (p.Unmarshal b1).buf = (p.Unmarshal b2).buf) := by
  have h32 : echoPkgHeaderLen = 32 := rfl
  have hdec : decodeHeader b1 = decodeHeader b2 := by
    rw [← decodeHeader_take_26 b1, ← decodeHeader_take_26 b2, hhead]
  by_cases hs : b1.length < echoPkgHeaderLen
  · rw [Unmarshal_short p b1 hs, Unmarshal_short p b2 (hlen ▸ hs)]
    exact ⟨rfl, rfl, rfl, fun hl => absurd hl (by omega)⟩
  · have e : p.Unmarshal b1 = p.Unmarshal b2 := by
      rw [Unmarshal_long p b1 (by omega), Unmarshal_long p b2 (by omega),
        decodeHeader_take, decodeHeader_take, hdec, h32, htail]
    rw [e]
    exact ⟨rfl, rfl, rfl, fun _ => rfl⟩

/-- Witness of C15: the encoded heartbeat request and the same bytes with the
reserved bytes set to `ff`. -/
theorem C15_reserved_bytes_unexamined_witness :
    pingBuffer.length = pingBufferReserved.length ∧
    pingBuffer.take 26 = pingBufferReserved.take 26 ∧
    pingBuffer.drop 32 = pingBufferReserved.drop 32 ∧
    pingBuffer ≠ pingBufferReserved ∧
    (zeroPackage.Unmarshal pingBuffer).err = (zeroPackage.Unmarshal pingBufferReserved).err ∧
    (zeroPackage.Unmarshal pingBuffer).n = (zeroPackage.Unmarshal pingBufferReserved).n ∧
    (zeroPackage.Unmarshal pingBuffer).p = (zeroPackage.Unmarshal pingBufferReserved).p ∧
    (32 ≤ pingBuffer.length →
      (zeroPackage.Unmarshal pingBuffer).buf = (zeroPackage.Unmarshal pingBufferReserved).buf) :=
  ⟨by decide, by decide, by decide, by decide,
    C15_reserved_bytes_unexamined zeroPackage pingBuffer pingBufferReserved
      (by decide) (by decide) (by decide)⟩

/-- C16. Exact acceptance condition: `Unmarshal` returns a `nil` error and a
count other than 0 exactly when the buffer has at least 32 bytes, its bytes
0-3 read little-endian as `0x20160905`, its header `Len` (bytes 24-25) is
between 1 and 256, and at least `Len` bytes follow the header; the count is
then `32 + Len`. With the right magic, `Len = 0` is rejected with
`ErrTooLargePackage` (through the wrap-around of `Len - 1` in 16 bits), and a
`Len` larger than the number of bytes after the header is reported as
`ErrNotEnoughStream`, whatever its size. -/
theorem C16_acceptance_condition (p : EchoPackage) (buf : List Byte) :
    (((p.Unmarshal buf).err = none ∧ (p.Unmarshal buf).n ≠ 0) ↔
      (32 ≤ buf.length ∧ getUint32 buf = echoPkgMagic ∧
       1 ≤ getUint16 (buf.drop 24) ∧ getUint16 (buf.drop 24) ≤ 256 ∧
       getUint16 (buf.drop 24) ≤ buf.length - 32)) ∧
    ((p.Unmarshal buf).err = none → (p.Unmarshal buf).n = 32 + getUint16 (buf.drop 24)) ∧
    (32 ≤ buf.length → getUint32 buf = echoPkgMagic → getUint16 (buf.drop 24) = 0 →
      (p.Unmarshal buf).err = some .ErrTooLargePackage) ∧
    (32 ≤ buf.length → getUint32 buf = echoPkgMagic →
      buf.length - 32 < getUint16 (buf.drop 24) →
      (p.Unmarshal buf).err = some .ErrNotEnoughStream) := by
  refine ⟨⟨?_, ?_⟩, ?_, Unmarshal_zero_len p buf, Unmarshal_not_enough p buf⟩
  · rintro ⟨he, _⟩
    obtain ⟨k0, k1, k2, k3, k4, _⟩ := Unmarshal_success p buf he
    exact ⟨k0, k1, k2, k3, by omega⟩
  · rintro ⟨k0, k1, k2, k3, k4⟩
    obtain ⟨he, hn⟩ := Unmarshal_accepts p buf k0 k1 k2 k3 k4
    exact ⟨he, by omega⟩
  · intro he
    obtain ⟨_, _, _, _, _, hu⟩ := Unmarshal_success p buf he
    have hn : (p.Unmarshal buf).n = getUint16 (buf.drop 24) + 32 := by rw [hu]
    omega

/-- C16 at three buffers: the encoded heartbeat request is accepted with count
37, a header with `Len = 0` is rejected with `ErrTooLargePackage`, and the
first 100 bytes of a buffer with `Len = 257` give `ErrNotEnoughStream`. -/
theorem C16_acceptance_condition_witness :
    ((zeroPackage.Unmarshal pingBuffer).err = none ∧ (zeroPackage.Unmarshal pingBuffer).n ≠ 0) ∧
    (zeroPackage.Unmarshal pingBuffer).n = 32 + getUint16 (pingBuffer.drop 24) ∧
    (zeroPackage.Unmarshal zeroLenBuffer).err = some .ErrTooLargePackage ∧
    (zeroPackage.Unmarshal (oversizeBuffer.take 100)).err = some .ErrNotEnoughStream :=
  ⟨(C16_acceptance_condition zeroPackage pingBuffer).1.mpr
      ⟨by decide, by decide, by decide, by decide, by decide⟩,
    (C16_acceptance_condition zeroPackage pingBuffer).2.1 (by decide),
    (C16_acceptance_condition zeroPackage zeroLenBuffer).2.2.1
      (by decide) (by decide) (by decide),
    (C16_acceptance_condition zeroPackage (oversizeBuffer.take 100)).2.2.2
      (by decide) (by decide) (by decide)⟩

/-- C17, as stated, fails. On `slackBuffer` the call succeeds with count 37
and takes 33 bytes out of the buffer. On `greedyBuffer` it succeeds with count
33 and takes 37 bytes out of the buffer: the decoded body is made of the four
bytes that lie after the first 33. -/
theorem C17_cursor_counterexample :
    (zeroPackage.Unmarshal slackBuffer).err = none ∧
    (zeroPackage.Unmarshal slackBuffer).n = 37 ∧
    slackBuffer.length - (zeroPackage.Unmarshal slackBuffer).buf.length = 33 ∧
    (zeroPackage.Unmarshal greedyBuffer).err = none ∧
    (zeroPackage.Unmarshal greedyBuffer).n = 33 ∧
    greedyBuffer.length - (zeroPackage.Unmarshal greedyBuffer).buf.length = 37 ∧
    (zeroPackage.Unmarshal greedyBuffer).p.B = greedyBuffer.drop 33 ∧
    (zeroPackage.Unmarshal greedyBuffer).p.B = [0x70, 0x69, 0x6e, 0x67] := by
  decide

/-- C17, amended. Cursor consistency: on every buffer on which `Unmarshal`
succeeds it leaves the buffer at offset `33 + length byte`, having taken out
the header, the length byte and the body (`33 + min (length byte)
(len(buf) - 33)` bytes). When the header `Len` is the length byte plus 1, the
number of bytes taken out is the count returned, the bytes left are the input
from offset `count` on, and the decoded body lies inside the first `count`
bytes of the input, from offset 33 to their end. -/
theorem C17_cursor_consistency (p : EchoPackage) (buf : List Byte)
    (h : (p.Unmarshal buf).err = none) :
    (p.Unmarshal buf).buf = buf.drop (33 + byteAt buf 32) ∧
    buf.length - (p.Unmarshal buf).buf.length
      = 33 + min (byteAt buf 32) (buf.length - 33) ∧
    (getUint16 (buf.drop 24) = byteAt buf 32 + 1 →
      buf.length - (p.Unmarshal buf).buf.length = (p.Unmarshal buf).n ∧
      (p.Unmarshal buf).buf = buf.drop (p.Unmarshal buf).n ∧
      (p.Unmarshal buf).p.B = (buf.take (p.Unmarshal buf).n).drop 33) := by
  obtain ⟨_, _, k1, _, k3, hu⟩ := Unmarshal_success p buf h
  have hbuf : (p.Unmarshal buf).buf = buf.drop (33 + byteAt buf 32) := by
    rw [hu, List.drop_drop]
  have hn : (p.Unmarshal buf).n = getUint16 (buf.drop 24) + 32 := by rw [hu]
  have hB : (p.Unmarshal buf).p.B = (buf.drop 33).take (byteAt buf 32) := by rw [hu]
  have hrem : buf.length - (p.Unmarshal buf).buf.length
      = 33 + min (byteAt buf 32) (buf.length - 33) := by
    rw [hbuf, List.length_drop]
    omega
  refine ⟨hbuf, hrem, fun hlen => ?_⟩
  have hn2 : (p.Unmarshal buf).n = 33 + byteAt buf 32 := by omega
  refine ⟨by omega, by rw [hbuf, hn2], ?_⟩
  rw [hB, hn2, List.take_drop]

/-- Witness of C17 at the encoded heartbeat request. -/
theorem C17_cursor_consistency_witness :
    (zeroPackage.Unmarshal pingBuffer).err = none ∧
    (zeroPackage.Unmarshal pingBuffer).buf = pingBuffer.drop (33 + byteAt pingBuffer 32) ∧
    pingBuffer.length - (zeroPackage.Unmarshal pingBuffer).buf.length
      = 33 + min (byteAt pingBuffer 32) (pingBuffer.length - 33) ∧
    (getUint16 (pingBuffer.drop 24) = byteAt pingBuffer 32 + 1 →
      pingBuffer.length - (zeroPackage.Unmarshal pingBuffer).buf.length
        = (zeroPackage.Unmarshal pingBuffer).n ∧
      (zeroPackage.Unmarshal pingBuffer).buf = pingBuffer.drop (zeroPackage.Unmarshal pingBuffer).n ∧
      (zeroPackage.Unmarshal pingBuffer).p.B
        = (pingBuffer.take (zeroPackage.Unmarshal pingBuffer).n).drop 33) :=
  ⟨by decide, C17_cursor_consistency zeroPackage pingBuffer (by decide)⟩

theorem byteAt_cons_zero (b : Byte) (l : List Byte) : byteAt (b :: l) 0 = b.val := rfl

theorem byteAt_cons_succ (b : Byte) (l : List Byte) (i : Nat) :
    byteAt (b :: l) (i + 1) = byteAt l i := rfl

theorem uint32OfInt32_int32OfUint32 (v : Nat) (hv : v < 2 ^ 32) :
    uint32OfInt32 (int32OfUint32 v) = v := by
  unfold int32OfUint32 uint32OfInt32
  split <;> omega

/-- Two byte lists of the same length with the same byte at every index are
equal. -/
theorem eq_of_byteAt_eq (l1 l2 : List Byte) (hlen : l1.length = l2.length)
    (h : ∀ i, i < l1.length → byteAt l1 i = byteAt l2 i) : l1 = l2 := by
  apply List.ext_getElem hlen
  intro i h1 h2
  have e := h i h1
  unfold byteAt at e
  rw [List.getD_eq_getElem _ _ h1, List.getD_eq_getElem _ _ h2] at e
  exact Fin.ext e

/-- Writing a decoded header gives back the 32 bytes it was decoded from, when
the six reserved bytes among them are zero. -/
theorem encodeHeader_decodeHeader (buf : List Byte) (hl : 32 ≤ buf.length)
    (hz : (buf.drop 26).take 6 = [0, 0, 0, 0, 0, 0]) :
    encodeHeader (decodeHeader buf) = buf.take 32 := by
  have hcode : uint32OfInt32 (decodeHeader buf).Code = getUint32 (buf.drop 20) :=
    uint32OfInt32_int32OfUint32 _ (getUint32_lt _)
  have hres : ∀ j, j < 6 → byteAt buf (26 + j) = 0 := by
    intro j hj
    rw [← byteAt_drop, ← byteAt_take _ 6 _ hj, hz]
    interval_cases j <;> rfl
  have r0 := hres 0 (by omega)
  have r1 := hres 1 (by omega)
  have r2 := hres 2 (by omega)
  have r3 := hres 3 (by omega)
  have r4 := hres 4 (by omega)
  have r5 := hres 5 (by omega)
  simp only [Nat.reduceAdd] at r0 r1 r2 r3 r4 r5
  have b0 := byteAt_lt buf 0
  have b1 := byteAt_lt buf 1
  have b2 := byteAt_lt buf 2
  have b3 := byteAt_lt buf 3
  have b4 := byteAt_lt buf 4
  have b5 := byteAt_lt buf 5
  have b6 := byteAt_lt buf 6
  have b7 := byteAt_lt buf 7
  have b8 := byteAt_lt buf 8
  have b9 := byteAt_lt buf 9
  have b10 := byteAt_lt buf 10
  have b11 := byteAt_lt buf 11
  have b12 := byteAt_lt buf 12
  have b13 := byteAt_lt buf 13
  have b14 := byteAt_lt buf 14
  have b15 := byteAt_lt buf 15
  have b16 := byteAt_lt buf 16
  have b17 := byteAt_lt buf 17
  have b18 := byteAt_lt buf 18
  have b19 := byteAt_lt buf 19
  have b20 := byteAt_lt buf 20
  have b21 := byteAt_lt buf 21
  have b22 := byteAt_lt buf 22
  have b23 := byteAt_lt buf 23
  have b24 := byteAt_lt buf 24
  have b25 := byteAt_lt buf 25
  apply eq_of_byteAt_eq
  · rw [encodeHeader_length, List.length_take]
    omega
  · intro i hi
    rw [encodeHeader_length] at hi
    rw [byteAt_take _ 32 _ hi]
    simp only [encodeHeader, hcode, putUint32, putUint16, List.cons_append, List.nil_append]
    simp only [decodeHeader, getUint32, getUint16, byteAt_drop, Nat.reduceAdd]
    interval_cases i <;>
      simp only [byteAt_cons_zero, byteAt_cons_succ, toByte_val] <;> omega

/-- C18. Re-encoding undoes decoding on canonical input: when `Unmarshal`
succeeds on a buffer whose reserved bytes (offsets 26 to 31) are zero and whose
header `Len` is the length byte plus 1, `Marshal` of the decoded package
returns, with a `nil` error, the first `count` bytes of the buffer. -/
theorem C18_reencode (p : EchoPackage) (buf : List Byte)
    (h : (p.Unmarshal buf).err = none)
    (hz : (buf.drop 26).take 6 = [0, 0, 0, 0, 0, 0])
    (hlen : getUint16 (buf.drop 24) = byteAt buf 32 + 1) :
    (p.Unmarshal buf).p.Marshal = .ok (buf.take (p.Unmarshal buf).n) := by
  obtain ⟨k0, _, _, _, k3, hu⟩ := Unmarshal_success p buf h
  have hn0 : (p.Unmarshal buf).n = getUint16 (buf.drop 24) + 32 := by rw [hu]
  have hn : (p.Unmarshal buf).n = 32 + (1 + byteAt buf 32) := by omega
  have hH : (p.Unmarshal buf).p.H = decodeHeader buf := by rw [hu]
  have hB : (p.Unmarshal buf).p.B = (buf.drop 33).take (byteAt buf 32) := by rw [hu]
  have hBlen : (p.Unmarshal buf).p.B.length = byteAt buf 32 := by
    rw [hB, List.length_take, List.length_drop]
    omega
  have h32 : 32 < buf.length := by omega
  have hbyte : toByte (byteAt buf 32) = buf[32] := by
    apply Fin.ext
    have e : byteAt buf 32 = (buf[32]).val := by
      unfold byteAt
      rw [List.getD_eq_getElem _ _ h32]
    have hlt := byteAt_lt buf 32
    rw [toByte_val, ← e]
    omega
  have hdrop : buf.drop 32 = buf[32] :: buf.drop 33 := List.drop_eq_getElem_cons h32
  rw [Marshal_ok, hH, hBlen, hB, hn, encodeHeader_decodeHeader buf k0 hz, hbyte,
    List.take_add, List.take_add, hdrop]
  rfl

/-- Witness of C18 at the encoded heartbeat request. -/
theorem C18_reencode_witness :
    (zeroPackage.Unmarshal pingBuffer).err = none ∧
    (pingBuffer.drop 26).take 6 = [0, 0, 0, 0, 0, 0] ∧
    getUint16 (pingBuffer.drop 24) = byteAt pingBuffer 32 + 1 ∧
    (zeroPackage.Unmarshal pingBuffer).p.Marshal
      = .ok (pingBuffer.take (zeroPackage.Unmarshal pingBuffer).n) :=
  ⟨by decide, by decide, by decide,
    C18_reencode zeroPackage pingBuffer (by decide) (by decide) (by decide)⟩

end Echo
